import Mathlib

/-!
Shallow embedding of the jexl-to-estree translator.

Source of the embedding:
* the tree rewriter `estreeFromJexlAst`, its inliner
  `createExpressionFromFunction` and the predicate scanner
  `findAllRelativeIdentifiers` (src/src/index.ts);
* the optional-chaining annotator `addOptionalChainingToMemberExpressions`
  together with `BUILT_IN_IDENTIFIERS` and `getIdentifierPathFromNodePath`
  (src/unnamed/part_002).

Jexl AST nodes and ESTree nodes are modelled as mutually inductive families
(with dedicated list types so that all recursion is structural).  JavaScript
exceptions are modelled by `Except String`.  Caller-supplied collaborators
(the function parser, the always-defined predicate) are modelled as plain
Lean functions inside an `Options` structure; JavaScript function values are
represented by their printed source text, which is the only thing the
translator ever uses them for.
-/

/-- Literal payloads carried by both the Jexl and the ESTree `Literal` node. -/
inductive LitVal where
  | num (n : Int)
  | str (s : String)
  | bool (b : Bool)
  | null
deriving DecidableEq, Repr

/-- The pool of a Jexl `FunctionCall` node. -/
inductive Pool where
  | functions
  | transforms
deriving DecidableEq, Repr

/-- Parameter patterns of (parsed) target-language functions.  `id` is a plain
identifier parameter; `objPat` is an object pattern of shorthand properties,
as produced for relative filter predicates. -/
inductive Pat where
  | id (name : String)
  | objPat (names : List String)
deriving DecidableEq, Repr

mutual

/-- ESTree expression nodes (the target tree vocabulary the rewriter emits). -/
inductive Es where
  | lit (v : LitVal)
  | ident (name : String)
  | member (obj : Es) (prop : Es) (computed : Bool) (optional : Bool)
  | unaryEx (op : String) (arg : Es)
  | binaryEx (op : String) (left : Es) (right : Es)
  | logical (op : String) (left : Es) (right : Es)
  | condEx (test : Es) (conseq : Es) (alt : Es)
  | arrayEx (elems : EsList)
  | objectEx (props : EsProps)
  | callEx (callee : Es) (args : EsList)
  | arrowEx (params : List Pat) (body : ABody)
  | newEx (callee : Es) (args : EsList)

/-- Ordered list of expressions (array elements, call arguments). -/
inductive EsList where
  | nil
  | cons (head : Es) (tail : EsList)

/-- Ordered key/value properties of an object expression. -/
inductive EsProps where
  | nil
  | cons (key : String) (value : Es) (tail : EsProps)

/-- Body of an arrow function: a bare expression or a block of statements. -/
inductive ABody where
  | expr (e : Es)
  | block (stmts : StmtList)

/-- The statement forms the inliner meets in parsed function sources. -/
inductive Stmt where
  | exprStmt (e : Es)
  | ret (arg : Es)
  | retNone
  | funcDecl (name : String) (params : List Pat) (body : StmtList)

/-- Ordered list of statements (a program body or a block body). -/
inductive StmtList where
  | nil
  | cons (head : Stmt) (tail : StmtList)

end

mutual

/-- Jexl AST nodes, as documented by jexl and consumed by the rewriter.
An `Identifier` with a parent is `identFrom`; a bare one is `ident`. -/
inductive JexlAst where
  | lit (v : LitVal)
  | ident (name : String) (relative : Bool)
  | identFrom (name : String) (fr : JexlAst) (relative : Bool)
  | unaryEx (op : String) (right : JexlAst)
  | binaryEx (op : String) (left : JexlAst) (right : JexlAst)
  | condEx (test : JexlAst) (conseq : JexlAst) (alt : JexlAst)
  | arrayLit (elems : JexlList)
  | objectLit (entries : JexlEntries)
  | filterEx (relative : Bool) (subject : JexlAst) (expr : JexlAst)
  | funcCall (pool : Pool) (name : String) (args : JexlList)

/-- Ordered list of Jexl nodes. -/
inductive JexlList where
  | nil
  | cons (head : JexlAst) (tail : JexlList)

/-- Ordered entries of a Jexl object literal. -/
inductive JexlEntries where
  | nil
  | cons (key : String) (value : JexlAst) (tail : JexlEntries)

end

/-- Append a node at the end of a list, as `[...ancestors, ast]` does. -/
def JexlList.push : JexlList → JexlAst → JexlList
  | .nil, a => .cons a .nil
  | .cons h t, a => .cons h (t.push a)

/-- First statement of a parsed program (`program.body?.[0]`). -/
def StmtList.head? : StmtList → Option Stmt
  | .nil => none
  | .cons h _ => some h

/-- Positional lookup in an argument list (`args[i]`). -/
def EsList.get? : EsList → Nat → Option Es
  | .nil, _ => none
  | .cons h _, 0 => some h
  | .cons _ t, n + 1 => t.get? n

/-- A grammar element record: its kind tag and its optional `eval`
implementation, represented by the printed source of the function. -/
structure GramElement where
  type : String
  eval : Option String
deriving DecidableEq, Repr

/-- Lookup in a string-keyed JavaScript object, modelled as an
association list (`obj[name]`). -/
def lookupAssoc {α : Type} : List (String × α) → String → Option α
  | [], _ => none
  | (k, v) :: t, n => if k == n then some v else lookupAssoc t n

/-- The read-only jexl grammar: operator elements plus the two
implementation pools.  Implementations are printed source texts. -/
structure Grammar where
  elements : List (String × GramElement)
  transforms : List (String × String)
  functions : List (String × String)

/-- Caller-supplied configuration (`EstreeFromJexlAstOptions`).  The function
parser returns a program body (a statement list). -/
structure Options where
  functionParser : Option (String → StmtList)
  translateTransforms : Option (List (String × String))
  translateFunctions : Option (List (String × String))
  isIdentifierAlwaysDefined : Option (List String → Bool)

mutual

/-- `findAllRelativeIdentifiers` (src/src/index.ts): depth-first scan of a
predicate subtree collecting every relatively-flagged identifier name in
visit order.  An `Identifier` case never recurses into its parent chain. -/
def findAllRelativeIdentifiers : JexlAst → List String
  | .lit _ => []
  | .ident name relative => if relative then [name] else []
  | .identFrom name _ relative => if relative then [name] else []
  | .unaryEx _ right => findAllRelativeIdentifiers right
  | .binaryEx _ left right =>
      findAllRelativeIdentifiers left ++ findAllRelativeIdentifiers right
  | .condEx t c a =>
      findAllRelativeIdentifiers t ++ findAllRelativeIdentifiers c ++
        findAllRelativeIdentifiers a
  | .arrayLit elems => findAllRelativeIdentifiersList elems
  | .objectLit entries => findAllRelativeIdentifiersEntries entries
  | .filterEx _ subject expr =>
      findAllRelativeIdentifiers subject ++ findAllRelativeIdentifiers expr
  | .funcCall _ _ args => findAllRelativeIdentifiersList args

/-- Scan of a node list, in order. -/
def findAllRelativeIdentifiersList : JexlList → List String
  | .nil => []
  | .cons h t => findAllRelativeIdentifiers h ++ findAllRelativeIdentifiersList t

/-- Scan of object-literal values, in insertion order. -/
def findAllRelativeIdentifiersEntries : JexlEntries → List String
  | .nil => []
  | .cons _ v t =>
      findAllRelativeIdentifiers v ++ findAllRelativeIdentifiersEntries t

end

/-- Index of the first identifier parameter with the given name
(`functionParams.findIndex(param => is.identifier(param) && ...)`). -/
def findParamIndex (params : List Pat) (n : String) : Option Nat :=
  params.findIdx? fun p =>
    match p with
    | .id m => m == n
    | _ => false

mutual

/-- One pass of the inliner substitution: every identifier in reference
position whose name matches an identifier parameter is replaced with the
call-site argument of the same index, or with the identifier `undefined`
when the argument list is too short.  Replacement nodes are inserted
verbatim (the traversal does not descend into them), and a non-computed
member property is not a reference. -/
def substE (params : List Pat) (args : EsList) : Es → Es
  | .ident n =>
      match findParamIndex params n with
      | some i =>
          match args.get? i with
          | some a => a
          | none => .ident "undefined"
      | none => .ident n
  | .lit v => .lit v
  | .member o p c opt =>
      .member (substE params args o)
        (if c then substE params args p else p) c opt
  | .unaryEx op a => .unaryEx op (substE params args a)
  | .binaryEx op l r => .binaryEx op (substE params args l) (substE params args r)
  | .logical op l r => .logical op (substE params args l) (substE params args r)
  | .condEx t c a =>
      .condEx (substE params args t) (substE params args c) (substE params args a)
  | .arrayEx l => .arrayEx (substL params args l)
  | .objectEx ps => .objectEx (substProps params args ps)
  | .callEx f a => .callEx (substE params args f) (substL params args a)
  | .arrowEx ps b => .arrowEx ps (substBody params args b)
  | .newEx f a => .newEx (substE params args f) (substL params args a)

/-- Substitution over an expression list. -/
def substL (params : List Pat) (args : EsList) : EsList → EsList
  | .nil => .nil
  | .cons h t => .cons (substE params args h) (substL params args t)

/-- Substitution over object properties (keys are not references). -/
def substProps (params : List Pat) (args : EsList) : EsProps → EsProps
  | .nil => .nil
  | .cons k v t => .cons k (substE params args v) (substProps params args t)

/-- Substitution inside an arrow-function body. -/
def substBody (params : List Pat) (args : EsList) : ABody → ABody
  | .expr e => .expr (substE params args e)
  | .block sts => .block (substStmts params args sts)

/-- Substitution inside a statement. -/
def substStmt (params : List Pat) (args : EsList) : Stmt → Stmt
  | .exprStmt e => .exprStmt (substE params args e)
  | .ret e => .ret (substE params args e)
  | .retNone => .retNone
  | .funcDecl nm ps b => .funcDecl nm ps (substStmts params args b)

/-- Substitution over a statement list. -/
def substStmts (params : List Pat) (args : EsList) : StmtList → StmtList
  | .nil => .nil
  | .cons h t => .cons (substStmt params args h) (substStmts params args t)

end

/-- Substitution as seen through the returned `functionBody` alias when the
body is a bare expression.  The traversal wraps the body in an expression
statement and `path.replaceWith` rewires that wrapper, so when the body node
itself is an identifier in reference position the local `functionBody`
binding keeps pointing at the original, un-replaced identifier; every deeper
replacement mutates the body in place and is visible through the alias. -/
def substTopE (params : List Pat) (args : EsList) : Es → Es
  | .ident n => .ident n
  | e => substE params args e

/-- Is this node the identifier `undefined`? -/
def isUndefinedIdent : Es → Bool
  | .ident n => n == "undefined"
  | _ => false

/-- Remove the trailing run of `undefined` identifiers from a call argument
list, scanning from the end and stopping at the first other argument. -/
def dropTrailingUndefined : EsList → EsList
  | .nil => .nil
  | .cons h t =>
      match dropTrailingUndefined t with
      | .nil => if isUndefinedIdent h then .nil else .cons h .nil
      | t' => .cons h t'

mutual

/-- The second inliner traversal: in every call expression of the subtree,
drop superfluous trailing `undefined` arguments.  New expressions and all
other node kinds keep their argument lists.  The source splices a call nodes
arguments on entry and then descends into the survivors; since the dropped
nodes are bare `undefined` identifiers and pruning maps identifiers to
themselves, splicing commutes with the descent, and the recursion is written
descent-first here (the splice-first form is recovered by
`pruneE_callEx_source_order` below). -/
def pruneE : Es → Es
  | .lit v => .lit v
  | .ident n => .ident n
  | .member o p c opt => .member (pruneE o) (pruneE p) c opt
  | .unaryEx op a => .unaryEx op (pruneE a)
  | .binaryEx op l r => .binaryEx op (pruneE l) (pruneE r)
  | .logical op l r => .logical op (pruneE l) (pruneE r)
  | .condEx t c a => .condEx (pruneE t) (pruneE c) (pruneE a)
  | .arrayEx l => .arrayEx (pruneL l)
  | .objectEx ps => .objectEx (pruneProps ps)
  | .callEx f a => .callEx (pruneE f) (dropTrailingUndefined (pruneL a))
  | .arrowEx ps b => .arrowEx ps (pruneBody b)
  | .newEx f a => .newEx (pruneE f) (pruneL a)

/-- Pruning over an expression list. -/
def pruneL : EsList → EsList
  | .nil => .nil
  | .cons h t => .cons (pruneE h) (pruneL t)

/-- Pruning over object properties. -/
def pruneProps : EsProps → EsProps
  | .nil => .nil
  | .cons k v t => .cons k (pruneE v) (pruneProps t)

/-- Pruning inside an arrow body. -/
def pruneBody : ABody → ABody
  | .expr e => .expr (pruneE e)
  | .block sts => .block (pruneStmts sts)

/-- Pruning inside a statement. -/
def pruneStmt : Stmt → Stmt
  | .exprStmt e => .exprStmt (pruneE e)
  | .ret e => .ret (pruneE e)
  | .retNone => .retNone
  | .funcDecl nm ps b => .funcDecl nm ps (pruneStmts b)

/-- Pruning over a statement list. -/
def pruneStmts : StmtList → StmtList
  | .nil => .nil
  | .cons h t => .cons (pruneStmt h) (pruneStmts t)

end

/-- Substitute, prune, then simplify: unwrap a single-return block to its
returned expression (a bare `return;` yields the JavaScript `null` that the
callers treat as no result), wrap any other block in an immediately invoked
parameterless arrow, and hand back an expression body directly. -/
def inlineWithParams (params : List Pat) (body : ABody) (args : EsList) :
    Option Es :=
  let bodySub : ABody :=
    match body with
    | .expr e => .expr (substTopE params args e)
    | .block sts => .block (substStmts params args sts)
  match bodySub with
  | .expr e => some (pruneE e)
  | .block sts =>
      match pruneStmts sts with
      | .cons (.ret a) .nil => some a
      | .cons .retNone .nil => none
      | sts' => some (.callEx (.arrowEx [] (.block sts')) .nil)

/-- `createExpressionFromFunction` (src/src/index.ts): obtain the printed
source of the implementation, parse it with the configured function parser,
unwrap a top-level expression statement, and inline an arrow function or
function declaration; anything else is a soft failure. -/
def createExpressionFromFunction (o : Options) (func : Option String)
    (args : EsList) : Option Es :=
  match func with
  | none => none
  | some src =>
      match o.functionParser with
      | none => none
      | some parser =>
          match (parser src).head? with
          | none => none
          | some st =>
              match st with
              | .exprStmt (.arrowEx params body) => inlineWithParams params body args
              | .funcDecl _ params body => inlineWithParams params (.block body) args
              | _ => none

/-- The binary operator symbols that exist natively in the target and map to
themselves (the long fall-through case group of the binary switch). -/
def isPassThroughBinaryOp (op : String) : Bool :=
  op == "===" || op == "!==" || op == "<" || op == "<=" || op == ">" ||
  op == ">=" || op == "<<" || op == ">>" || op == ">>>" || op == "+" ||
  op == "-" || op == "*" || op == "/" || op == "%" || op == "&" ||
  op == "|" || op == "instanceof" || op == "**"

/-- Implementation resolution for a `FunctionCall`: the caller override map
of the calls pool first, else the grammar implementation of that pool
(`options.translateTransforms?.[ast.name] ?? grammar.transforms[ast.name]`
and likewise for functions). -/
def resolveImplementation (o : Options) (g : Grammar) (pool : Pool)
    (name : String) : Option String :=
  match pool with
  | .transforms =>
      match o.translateTransforms.bind (fun m => lookupAssoc m name) with
      | some f => some f
      | none => lookupAssoc g.transforms name
  | .functions =>
      match o.translateFunctions.bind (fun m => lookupAssoc m name) with
      | some f => some f
      | none => lookupAssoc g.functions name

mutual

/-- `estreeFromJexlAst` (src/src/index.ts): the recursive tree rewriter.
Sub-expressions are rewritten in the evaluation order of the source
(`Except` propagates a thrown error and aborts the whole translation).
The two `default` operator branches throw `Unknown ... operator` when the
grammar element is missing, of the wrong kind, without `eval`, or when the
inliner yields no expression for it. -/
def estreeFromJexlAst (g : Grammar) (ast : JexlAst) (o : Options)
    (anc : JexlList) : Except String Es :=
  let anc' := anc.push ast
  match ast with
  | .lit v => .ok (.lit v)
  | .ident name _ => .ok (.ident name)
  | .identFrom name fr _ => do
      let obj ← estreeFromJexlAst g fr o anc'
      .ok (.member obj (.ident name) false false)
  | .unaryEx op right =>
      if op == "!" then do
        let r ← estreeFromJexlAst g right o anc'
        .ok (.unaryEx "!" r)
      else
        match lookupAssoc g.elements op with
        | some el =>
            if el.type == "unaryOp" && el.eval.isSome then do
              let r ← estreeFromJexlAst g right o anc'
              match createExpressionFromFunction o el.eval (.cons r .nil) with
              | some e => .ok e
              | none => .error ("Unknown unary operator: " ++ op)
            else .error ("Unknown unary operator: " ++ op)
        | none => .error ("Unknown unary operator: " ++ op)
  | .binaryEx op left right =>
      if op == "&&" || op == "||" then do
        let l ← estreeFromJexlAst g left o anc'
        let r ← estreeFromJexlAst g right o anc'
        .ok (.logical op l r)
      else if isPassThroughBinaryOp op then do
        let l ← estreeFromJexlAst g left o anc'
        let r ← estreeFromJexlAst g right o anc'
        .ok (.binaryEx op l r)
      else if op == "==" || op == "!=" then do
        let l ← estreeFromJexlAst g left o anc'
        let r ← estreeFromJexlAst g right o anc'
        .ok (.binaryEx (if op == "==" then "===" else "!==") l r)
      else if op == "^" then do
        let l ← estreeFromJexlAst g left o anc'
        let r ← estreeFromJexlAst g right o anc'
        .ok (.callEx (.member (.ident "Math") (.ident "pow") false false)
          (.cons l (.cons r .nil)))
      else if op == "//" then do
        let l ← estreeFromJexlAst g left o anc'
        let r ← estreeFromJexlAst g right o anc'
        .ok (.callEx (.member (.ident "Math") (.ident "floor") false false)
          (.cons (.binaryEx "/" l r) .nil))
      else if op == "in" then do
        let r ← estreeFromJexlAst g right o anc'
        let l ← estreeFromJexlAst g left o anc'
        .ok (.callEx (.member r (.ident "includes") false false) (.cons l .nil))
      else
        match lookupAssoc g.elements op with
        | some el =>
            if el.type == "binaryOp" && el.eval.isSome then do
              let l ← estreeFromJexlAst g left o anc'
              let r ← estreeFromJexlAst g right o anc'
              match createExpressionFromFunction o el.eval (.cons l (.cons r .nil)) with
              | some e => .ok e
              | none => .error ("Unknown binary operator: " ++ op)
            else .error ("Unknown binary operator: " ++ op)
        | none => .error ("Unknown binary operator: " ++ op)
  | .condEx t c a => do
      let t' ← estreeFromJexlAst g t o anc'
      let c' ← estreeFromJexlAst g c o anc'
      let a' ← estreeFromJexlAst g a o anc'
      .ok (.condEx t' c' a')
  | .arrayLit elems => do
      let es ← estreeFromJexlAstList g elems o anc'
      .ok (.arrayEx es)
  | .objectLit entries => do
      let ps ← estreeFromJexlAstEntries g entries o anc'
      .ok (.objectEx ps)
  | .filterEx relative subject expr =>
      if relative then do
        let s ← estreeFromJexlAst g subject o anc'
        let e ← estreeFromJexlAst g expr o anc'
        .ok (.callEx (.member s (.ident "filter") false false)
          (.cons (.arrowEx
              ((findAllRelativeIdentifiers expr).map fun nm => Pat.objPat [nm])
              (.expr e)) .nil))
      else do
        let s ← estreeFromJexlAst g subject o anc'
        let e ← estreeFromJexlAst g expr o anc'
        .ok (.member s e true false)
  | .funcCall pool name args => do
      let args' ← estreeFromJexlAstList g args o anc'
      match createExpressionFromFunction o (resolveImplementation o g pool name) args' with
      | some e => .ok e
      | none => .ok (.callEx (.ident name) args')

/-- Rewrite of a node list (`ast.value.map(recur)` / `ast.args.map(recur)`),
left to right. -/
def estreeFromJexlAstList (g : Grammar) (l : JexlList) (o : Options)
    (anc : JexlList) : Except String EsList :=
  match l with
  | .nil => .ok .nil
  | .cons h t => do
      let e ← estreeFromJexlAst g h o anc
      let es ← estreeFromJexlAstList g t o anc
      .ok (.cons e es)

/-- Rewrite of object-literal entries, in insertion order. -/
def estreeFromJexlAstEntries (g : Grammar) (l : JexlEntries) (o : Options)
    (anc : JexlList) : Except String EsProps :=
  match l with
  | .nil => .ok .nil
  | .cons k v t => do
      let e ← estreeFromJexlAst g v o anc
      let es ← estreeFromJexlAstEntries g t o anc
      .ok (.cons k e es)

end

/-- `BUILT_IN_IDENTIFIERS` (src/unnamed/part_002): environment built-ins
whose rooted accesses are never optional. -/
def BUILT_IN_IDENTIFIERS : List String :=
  ["Object", "Array", "String", "Number", "Boolean", "Date", "Math", "JSON",
   "Error", "Map", "Set", "WeakMap", "WeakSet", "Promise", "Symbol", "RegExp",
   "BigInt", "BigInt64Array", "BigUint64Array", "Int8Array", "Int16Array",
   "Int32Array", "Uint8Array", "Uint8ClampedArray", "Uint16Array",
   "Uint32Array", "Float32Array", "Float64Array", "DataView"]

/-- `isStaticExpression` of the annotator: array, object and literal nodes. -/
def isStaticExpression : Es → Bool
  | .arrayEx _ => true
  | .objectEx _ => true
  | .lit _ => true
  | _ => false

/-- Is the node an identifier or a member expression? -/
def isIdentOrMember : Es → Bool
  | .ident _ => true
  | .member _ _ _ _ => true
  | _ => false

/-- Is the node a `new` construction? -/
def isNewExpression : Es → Bool
  | .newEx _ _ => true
  | _ => false

/-- `getIdentifierPathFromNodePath`: the dotted path of an object
expression.  An identifier is a singleton path; a member expression appends
its property name (identifier property, or string-literal property value)
to the path of its object; any other node, and any member access with a
different property shape, yields the empty path.  Note that a member whose
object is neither identifier nor member contributes an empty prefix, so the
returned path can start at a property name rather than at a root
identifier. -/
def identifierPath : Es → List String
  | .ident n => [n]
  | .member o p _ _ =>
      match p with
      | .ident pn => identifierPath o ++ [pn]
      | .lit (.str s) => identifierPath o ++ [s]
      | _ => []
  | _ => []

/-- The optional flag the annotator assigns to a member access, decided from
its (pre-annotation) object: forced off after a `new` construction; off when
the object is an identifier or member access whose non-empty path has a
built-in head or satisfies the always-defined predicate; otherwise the
negation of being a static expression.  A caller who did not configure
`isIdentifierAlwaysDefined` is the constantly false predicate, because
`options.isIdentifierAlwaysDefined?.(path)` is undefined and falsy. -/
def memberFlag (p : List String → Bool) (obj : Es) : Bool :=
  if isNewExpression obj then false
  else if isIdentOrMember obj then
    match identifierPath obj with
    | [] => !(isStaticExpression obj)
    | h :: t =>
        if BUILT_IN_IDENTIFIERS.contains h || p (h :: t) then false
        else !(isStaticExpression obj)
  else !(isStaticExpression obj)

mutual

/-- The annotator traversal: rebuild the tree, replacing the optional flag
of every member access by `memberFlag` of its object.  The traversal visits
member expressions before their children and the flag decision reads only
node shapes, never optional flags, so the rebuild is order-independent. -/
def annotateE (p : List String → Bool) : Es → Es
  | .lit v => .lit v
  | .ident n => .ident n
  | .member o pr c _ => .member (annotateE p o) (annotateE p pr) c (memberFlag p o)
  | .unaryEx op a => .unaryEx op (annotateE p a)
  | .binaryEx op l r => .binaryEx op (annotateE p l) (annotateE p r)
  | .logical op l r => .logical op (annotateE p l) (annotateE p r)
  | .condEx t c a => .condEx (annotateE p t) (annotateE p c) (annotateE p a)
  | .arrayEx l => .arrayEx (annotateL p l)
  | .objectEx ps => .objectEx (annotateProps p ps)
  | .callEx f a => .callEx (annotateE p f) (annotateL p a)
  | .arrowEx ps b => .arrowEx ps (annotateBody p b)
  | .newEx f a => .newEx (annotateE p f) (annotateL p a)

/-- Annotation over an expression list. -/
def annotateL (p : List String → Bool) : EsList → EsList
  | .nil => .nil
  | .cons h t => .cons (annotateE p h) (annotateL p t)

/-- Annotation over object properties. -/
def annotateProps (p : List String → Bool) : EsProps → EsProps
  | .nil => .nil
  | .cons k v t => .cons k (annotateE p v) (annotateProps p t)

/-- Annotation inside an arrow body. -/
def annotateBody (p : List String → Bool) : ABody → ABody
  | .expr e => .expr (annotateE p e)
  | .block sts => .block (annotateStmts p sts)

/-- Annotation inside a statement. -/
def annotateStmt (p : List String → Bool) : Stmt → Stmt
  | .exprStmt e => .exprStmt (annotateE p e)
  | .ret e => .ret (annotateE p e)
  | .retNone => .retNone
  | .funcDecl nm ps b => .funcDecl nm ps (annotateStmts p b)

/-- Annotation over a statement list. -/
def annotateStmts (p : List String → Bool) : StmtList → StmtList
  | .nil => .nil
  | .cons h t => .cons (annotateStmt p h) (annotateStmts p t)

end

/-- `addOptionalChainingToMemberExpressions` (src/unnamed/part_002): the
post-pass over a completed target tree. -/
def addOptionalChainingToMemberExpressions (p : List String → Bool) (e : Es) :
    Es :=
  annotateE p e

/-- Did a translation step succeed (no thrown error)? -/
def exceptOk {α : Type} : Except String α → Bool
  | .ok _ => true
  | .error _ => false

/-- A unary/binary operator symbol is inlinable when the grammar holds an
element of the matching kind with an implementation and the inliner yields
an expression for it.  Whether the inliner yields an expression depends only
on the parsed shape of the implementation, never on the supplied arguments
(`createExpressionFromFunction_isSome_args` below), so the empty argument
list probes it. -/
def operatorInlinable (o : Options) (g : Grammar) (kind : String)
    (op : String) : Bool :=
  match lookupAssoc g.elements op with
  | some el =>
      el.type == kind && el.eval.isSome &&
        (createExpressionFromFunction o el.eval .nil).isSome
  | none => false

mutual

/-- Does the tree contain an operator that makes the rewriter throw: a unary
operator other than `!`, or a binary operator outside the static table, that
is not inlinable? -/
def hasUnknownOperator (g : Grammar) (o : Options) : JexlAst → Bool
  | .lit _ => false
  | .ident _ _ => false
  | .identFrom _ fr _ => hasUnknownOperator g o fr
  | .unaryEx op right =>
      (!(op == "!") && !(operatorInlinable o g "unaryOp" op)) ||
        hasUnknownOperator g o right
  | .binaryEx op left right =>
      (!(op == "&&" || op == "||" || isPassThroughBinaryOp op ||
          op == "==" || op == "!=" || op == "^" || op == "//" || op == "in") &&
        !(operatorInlinable o g "binaryOp" op)) ||
        hasUnknownOperator g o left || hasUnknownOperator g o right
  | .condEx t c a =>
      hasUnknownOperator g o t || hasUnknownOperator g o c ||
        hasUnknownOperator g o a
  | .arrayLit elems => hasUnknownOperatorList g o elems
  | .objectLit entries => hasUnknownOperatorEntries g o entries
  | .filterEx _ subject expr =>
      hasUnknownOperator g o subject || hasUnknownOperator g o expr
  | .funcCall _ _ args => hasUnknownOperatorList g o args

/-- Unknown-operator search over a node list. -/
def hasUnknownOperatorList (g : Grammar) (o : Options) : JexlList → Bool
  | .nil => false
  | .cons h t => hasUnknownOperator g o h || hasUnknownOperatorList g o t

/-- Unknown-operator search over object-literal entries. -/
def hasUnknownOperatorEntries (g : Grammar) (o : Options) : JexlEntries → Bool
  | .nil => false
  | .cons _ v t => hasUnknownOperator g o v || hasUnknownOperatorEntries g o t

end

/-- Resolvability in the sense of the resolver alone: the grammar holds an
element of the matching kind with an implementation, regardless of whether
that implementation can be inlined. -/
def operatorResolvable (g : Grammar) (kind : String) (op : String) : Bool :=
  match lookupAssoc g.elements op with
  | some el => el.type == kind && el.eval.isSome
  | none => false

mutual

/-- Does the tree contain a unary/binary operator symbol with neither a
static mapping in the operator table nor a resolvable custom implementation
in the grammar? -/
def hasUnresolvableOperator (g : Grammar) : JexlAst → Bool
  | .lit _ => false
  | .ident _ _ => false
  | .identFrom _ fr _ => hasUnresolvableOperator g fr
  | .unaryEx op right =>
      (!(op == "!") && !(operatorResolvable g "unaryOp" op)) ||
        hasUnresolvableOperator g right
  | .binaryEx op left right =>
      (!(op == "&&" || op == "||" || isPassThroughBinaryOp op ||
          op == "==" || op == "!=" || op == "^" || op == "//" || op == "in") &&
        !(operatorResolvable g "binaryOp" op)) ||
        hasUnresolvableOperator g left || hasUnresolvableOperator g right
  | .condEx t c a =>
      hasUnresolvableOperator g t || hasUnresolvableOperator g c ||
        hasUnresolvableOperator g a
  | .arrayLit elems => hasUnresolvableOperatorList g elems
  | .objectLit entries => hasUnresolvableOperatorEntries g entries
  | .filterEx _ subject expr =>
      hasUnresolvableOperator g subject || hasUnresolvableOperator g expr
  | .funcCall _ _ args => hasUnresolvableOperatorList g args

/-- Unresolvable-operator search over a node list. -/
def hasUnresolvableOperatorList (g : Grammar) : JexlList → Bool
  | .nil => false
  | .cons h t => hasUnresolvableOperator g h || hasUnresolvableOperatorList g t

/-- Unresolvable-operator search over object-literal entries. -/
def hasUnresolvableOperatorEntries (g : Grammar) : JexlEntries → Bool
  | .nil => false
  | .cons _ v t => hasUnresolvableOperator g v || hasUnresolvableOperatorEntries g t

end

mutual

/-- Does every member access of the tree carry exactly the optional flag the
rule `r` assigns for its object? -/
def flagsRespectE (r : Es → Bool) : Es → Bool
  | .lit _ => true
  | .ident _ => true
  | .member o pr _ f => (f == r o) && flagsRespectE r o && flagsRespectE r pr
  | .unaryEx _ a => flagsRespectE r a
  | .binaryEx _ l rr => flagsRespectE r l && flagsRespectE r rr
  | .logical _ l rr => flagsRespectE r l && flagsRespectE r rr
  | .condEx t c a => flagsRespectE r t && flagsRespectE r c && flagsRespectE r a
  | .arrayEx l => flagsRespectL r l
  | .objectEx ps => flagsRespectProps r ps
  | .callEx f a => flagsRespectE r f && flagsRespectL r a
  | .arrowEx _ b => flagsRespectBody r b
  | .newEx f a => flagsRespectE r f && flagsRespectL r a

/-- Flag check over an expression list. -/
def flagsRespectL (r : Es → Bool) : EsList → Bool
  | .nil => true
  | .cons h t => flagsRespectE r h && flagsRespectL r t

/-- Flag check over object properties. -/
def flagsRespectProps (r : Es → Bool) : EsProps → Bool
  | .nil => true
  | .cons _ v t => flagsRespectE r v && flagsRespectProps r t

/-- Flag check inside an arrow body. -/
def flagsRespectBody (r : Es → Bool) : ABody → Bool
  | .expr e => flagsRespectE r e
  | .block sts => flagsRespectStmts r sts

/-- Flag check inside a statement. -/
def flagsRespectStmt (r : Es → Bool) : Stmt → Bool
  | .exprStmt e => flagsRespectE r e
  | .ret e => flagsRespectE r e
  | .retNone => true
  | .funcDecl _ _ b => flagsRespectStmts r b

/-- Flag check over a statement list. -/
def flagsRespectStmts (r : Es → Bool) : StmtList → Bool
  | .nil => true
  | .cons h t => flagsRespectStmt r h && flagsRespectStmts r t

end

/-- The dotted path of an object in the sense of the claim wording: a chain
of property names resolved back to a root identifier.  A chain whose inner
object is neither an identifier nor a further chain has no rooted path. -/
def rootedIdentifierPath : Es → Option (List String)
  | .ident n => some [n]
  | .member o p _ _ =>
      match p with
      | .ident pn => (rootedIdentifierPath o).map (fun l => l ++ [pn])
      | .lit (.str s) => (rootedIdentifierPath o).map (fun l => l ++ [s])
      | _ => none
  | _ => none

/-- The optional flag rule claimed for the annotator: off for a rooted
identifier path with an allow-listed root or a predicate-accepted full path,
off for a static literal or a new construction, on in every other case. -/
def memberFlagClaim (p : List String → Bool) (obj : Es) : Bool :=
  match rootedIdentifierPath obj with
  | some (h :: t) =>
      if BUILT_IN_IDENTIFIERS.contains h || p (h :: t) then false
      else if isStaticExpression obj || isNewExpression obj then false
      else true
  | _ =>
      if isStaticExpression obj || isNewExpression obj then false
      else true

/-- A pure dotted chain of non-computed member accesses over identifier
property names, rooted at `root`, with every optional flag off. -/
def mkChain (root : String) (props : List String) : Es :=
  props.foldl (fun e pn => .member e (.ident pn) false false) (.ident root)

/-- The override map the resolver consults for a pool. -/
def overrideMap (o : Options) : Pool → Option (List (String × String))
  | .transforms => o.translateTransforms
  | .functions => o.translateFunctions

/-- The grammar implementation pool for a pool tag. -/
def grammarPool (g : Grammar) : Pool → List (String × String)
  | .transforms => g.transforms
  | .functions => g.functions

/-- The constantly false always-defined predicate (no identifier is ever
declared always defined). -/
def pNever : List String → Bool := fun _ => false

/-- A predicate accepting exactly the one-step path `a`. -/
def pRootAOnly : List String → Bool := fun l => l == ["a"]

/-- A grammar with no elements and empty pools. -/
def gEmpty : Grammar := { elements := [], transforms := [], functions := [] }

/-- A configuration with no collaborators at all. -/
def oEmpty : Options :=
  { functionParser := none, translateTransforms := none,
    translateFunctions := none, isIdentifierAlwaysDefined := none }

/-- A grammar with one custom binary operator whose implementation is
registered (its printed source is available). -/
def gCustomOp : Grammar :=
  { elements := [("<>", { type := "binaryOp", eval := some "(a, b) => a + b" })],
    transforms := [], functions := [] }

/-- The identity arrow function source. -/
def identityArrowSrc : String := "x => x"

/-- Function parser for `identityArrowSrc`: one expression statement holding
the arrow `x => x` (one identifier parameter, bare identifier body). -/
def parserIdentity : String → StmtList := fun _ =>
  .cons (.exprStmt (.arrowEx [Pat.id "x"] (.expr (.ident "x")))) .nil

/-- Options wired to `parserIdentity`. -/
def oIdentity : Options :=
  { functionParser := some parserIdentity, translateTransforms := none,
    translateFunctions := none, isIdentifierAlwaysDefined := none }

/-- Printed source of the repositories `dateString` translate function. -/
def dateStringSrc : String := "(value) => new Date(value).toString()"

/-- Printed source of the repositories `parseInt` transform. -/
def parseIntSrc : String := "(val, radix) => parseInt(val, radix)"

/-- A table-driven function parser returning the parse trees of the two
sources above, as an external parser would. -/
def parserTable : String → StmtList := fun src =>
  if src == dateStringSrc then
    .cons (.exprStmt (.arrowEx [Pat.id "value"]
      (.expr (.callEx
        (.member (.newEx (.ident "Date") (.cons (.ident "value") .nil))
          (.ident "toString") false false)
        .nil)))) .nil
  else if src == parseIntSrc then
    .cons (.exprStmt (.arrowEx [Pat.id "val", Pat.id "radix"]
      (.expr (.callEx (.ident "parseInt")
        (.cons (.ident "val") (.cons (.ident "radix") .nil)))))) .nil
  else .nil

/-- Options wired to `parserTable`. -/
def oTable : Options :=
  { functionParser := some parserTable, translateTransforms := none,
    translateFunctions := none, isIdentifierAlwaysDefined := none }

/-- Pruning maps the `undefined` identifier test through unchanged. -/
theorem isUndefinedIdent_pruneE (e : Es) :
    isUndefinedIdent (pruneE e) = isUndefinedIdent e := by
  cases e <;> simp [pruneE, isUndefinedIdent]

/-- Splicing trailing `undefined` arguments commutes with pruning the
individual arguments. -/
theorem dropTrailingUndefined_pruneL : (l : EsList) →
    dropTrailingUndefined (pruneL l) = pruneL (dropTrailingUndefined l)
  | .nil => rfl
  | .cons h t => by
      have ih := dropTrailingUndefined_pruneL t
      simp only [pruneL, dropTrailingUndefined, ih]
      cases hd : dropTrailingUndefined t with
      | nil =>
          simp only [pruneL, isUndefinedIdent_pruneE]
          cases hu : isUndefinedIdent h <;> simp [pruneL]
      | cons h' t' => simp [pruneL]

/-- The splice-first order of the source: pruning a call expression equals
splicing its trailing `undefined` arguments first and descending after. -/
theorem pruneE_callEx_source_order (f : Es) (a : EsList) :
    pruneE (.callEx f a) = .callEx (pruneE f) (pruneL (dropTrailingUndefined a)) := by
  simp [pruneE, dropTrailingUndefined_pruneL]

theorem exceptBind_ok {α β : Type} (a : α) (f : α → Except String β) :
    (Except.ok a >>= f) = f a := rfl

theorem exceptBind_error {α β : Type} (e : String) (f : α → Except String β) :
    ((Except.error e : Except String α) >>= f) = .error e := rfl

/-- Whether the inliner yields an expression does not depend on the supplied
arguments: parsing and the final body-shape checks only look at the parsed
implementation, and substitution and pruning preserve statement shapes. -/
theorem inlineWithParams_isSome_args (params : List Pat) (body : ABody)
    (a b : EsList) :
    (inlineWithParams params body a).isSome = (inlineWithParams params body b).isSome := by
  cases body with
  | expr e => simp [inlineWithParams]
  | block sts =>
      cases sts with
      | nil => simp [inlineWithParams, substStmts, pruneStmts]
      | cons s rest =>
          cases rest with
          | cons s2 rest2 =>
              cases s <;> cases s2 <;>
                simp [inlineWithParams, substStmts, substStmt, pruneStmts, pruneStmt]
          | nil =>
              cases s <;>
                simp [inlineWithParams, substStmts, substStmt, pruneStmts, pruneStmt]

/-- Argument independence of the inliner outcome. -/
theorem createExpressionFromFunction_isSome_args (o : Options)
    (f : Option String) (a b : EsList) :
    (createExpressionFromFunction o f a).isSome
      = (createExpressionFromFunction o f b).isSome := by
  cases f with
  | none => rfl
  | some src =>
      cases hp : o.functionParser with
      | none => simp [createExpressionFromFunction, hp]
      | some parser =>
          cases hh : (parser src).head? with
          | none => simp [createExpressionFromFunction, hp, hh]
          | some st =>
              cases st with
              | exprStmt e =>
                  cases e <;>
                    simp [createExpressionFromFunction, hp, hh,
                      inlineWithParams_isSome_args _ _ a b]
              | ret e => simp [createExpressionFromFunction, hp, hh]
              | retNone => simp [createExpressionFromFunction, hp, hh]
              | funcDecl nm ps bd =>
                  simp [createExpressionFromFunction, hp, hh,
                    inlineWithParams_isSome_args _ _ a b]

/-- Annotation never changes whether a node is a static expression. -/
theorem isStaticExpression_annotateE (p : List String → Bool) (e : Es) :
    isStaticExpression (annotateE p e) = isStaticExpression e := by
  cases e <;> simp [annotateE, isStaticExpression]

/-- Annotation never changes whether a node is a new construction. -/
theorem isNewExpression_annotateE (p : List String → Bool) (e : Es) :
    isNewExpression (annotateE p e) = isNewExpression e := by
  cases e <;> simp [annotateE, isNewExpression]

/-- Annotation never changes whether a node is an identifier or member. -/
theorem isIdentOrMember_annotateE (p : List String → Bool) (e : Es) :
    isIdentOrMember (annotateE p e) = isIdentOrMember e := by
  cases e <;> simp [annotateE, isIdentOrMember]

/-- Annotation never changes the dotted path of a node: the path reads only
identifiers, property shapes and string literals, never optional flags. -/
theorem identifierPath_annotateE (p : List String → Bool) :
    (e : Es) → identifierPath (annotateE p e) = identifierPath e
  | .lit v => by cases v <;> simp [annotateE, identifierPath]
  | .ident n => rfl
  | .member o pr c f => by
      have ih := identifierPath_annotateE p o
      cases pr with
      | lit v => cases v <;> simp [annotateE, identifierPath, ih]
      | ident pn => simp [annotateE, identifierPath, ih]
      | member o2 p2 c2 f2 => simp [annotateE, identifierPath]
      | unaryEx op a => simp [annotateE, identifierPath]
      | binaryEx op l r => simp [annotateE, identifierPath]
      | logical op l r => simp [annotateE, identifierPath]
      | condEx t c2 a => simp [annotateE, identifierPath]
      | arrayEx l => simp [annotateE, identifierPath]
      | objectEx ps => simp [annotateE, identifierPath]
      | callEx f2 a => simp [annotateE, identifierPath]
      | arrowEx ps b => simp [annotateE, identifierPath]
      | newEx f2 a => simp [annotateE, identifierPath]
  | .unaryEx op a => by simp [annotateE, identifierPath]
  | .binaryEx op l r => by simp [annotateE, identifierPath]
  | .logical op l r => by simp [annotateE, identifierPath]
  | .condEx t c a => by simp [annotateE, identifierPath]
  | .arrayEx l => by simp [annotateE, identifierPath]
  | .objectEx ps => by simp [annotateE, identifierPath]
  | .callEx f a => by simp [annotateE, identifierPath]
  | .arrowEx ps b => by simp [annotateE, identifierPath]
  | .newEx f a => by simp [annotateE, identifierPath]

/-- The flag the annotator assigns is the same whether computed from the
original or from the annotated object. -/
theorem memberFlag_annotateE (p : List String → Bool) (e : Es) :
    memberFlag p (annotateE p e) = memberFlag p e := by
  simp [memberFlag, isStaticExpression_annotateE, isNewExpression_annotateE,
    isIdentOrMember_annotateE, identifierPath_annotateE]

mutual

/-- After annotation, every member access carries exactly the flag that
`memberFlag` assigns for its (annotated) object. -/
theorem flagsRespect_annotateE (p : List String → Bool) :
    (e : Es) → flagsRespectE (memberFlag p) (annotateE p e) = true
  | .lit _ => rfl
  | .ident _ => rfl
  | .member o pr c f => by
      simp [annotateE, flagsRespectE, memberFlag_annotateE,
        flagsRespect_annotateE p o, flagsRespect_annotateE p pr]
  | .unaryEx op a => by simp [annotateE, flagsRespectE, flagsRespect_annotateE p a]
  | .binaryEx op l r => by
      simp [annotateE, flagsRespectE, flagsRespect_annotateE p l,
        flagsRespect_annotateE p r]
  | .logical op l r => by
      simp [annotateE, flagsRespectE, flagsRespect_annotateE p l,
        flagsRespect_annotateE p r]
  | .condEx t c a => by
      simp [annotateE, flagsRespectE, flagsRespect_annotateE p t,
        flagsRespect_annotateE p c, flagsRespect_annotateE p a]
  | .arrayEx l => by simp [annotateE, flagsRespectE, flagsRespect_annotateL p l]
  | .objectEx ps => by
      simp [annotateE, flagsRespectE, flagsRespect_annotateProps p ps]
  | .callEx f a => by
      simp [annotateE, flagsRespectE, flagsRespect_annotateE p f,
        flagsRespect_annotateL p a]
  | .arrowEx ps b => by
      simp [annotateE, flagsRespectE, flagsRespect_annotateBody p b]
  | .newEx f a => by
      simp [annotateE, flagsRespectE, flagsRespect_annotateE p f,
        flagsRespect_annotateL p a]

/-- List version of `flagsRespect_annotateE`. -/
theorem flagsRespect_annotateL (p : List String → Bool) :
    (l : EsList) → flagsRespectL (memberFlag p) (annotateL p l) = true
  | .nil => rfl
  | .cons h t => by
      simp [annotateL, flagsRespectL, flagsRespect_annotateE p h,
        flagsRespect_annotateL p t]

/-- Property version of `flagsRespect_annotateE`. -/
theorem flagsRespect_annotateProps (p : List String → Bool) :
    (ps : EsProps) → flagsRespectProps (memberFlag p) (annotateProps p ps) = true
  | .nil => rfl
  | .cons k v t => by
      simp [annotateProps, flagsRespectProps, flagsRespect_annotateE p v,
        flagsRespect_annotateProps p t]

/-- Arrow-body version of `flagsRespect_annotateE`. -/
theorem flagsRespect_annotateBody (p : List String → Bool) :
    (b : ABody) → flagsRespectBody (memberFlag p) (annotateBody p b) = true
  | .expr e => by simp [annotateBody, flagsRespectBody, flagsRespect_annotateE p e]
  | .block sts => by
      simp [annotateBody, flagsRespectBody, flagsRespect_annotateStmts p sts]

/-- Statement version of `flagsRespect_annotateE`. -/
theorem flagsRespect_annotateStmt (p : List String → Bool) :
    (s : Stmt) → flagsRespectStmt (memberFlag p) (annotateStmt p s) = true
  | .exprStmt e => by
      simp [annotateStmt, flagsRespectStmt, flagsRespect_annotateE p e]
  | .ret e => by simp [annotateStmt, flagsRespectStmt, flagsRespect_annotateE p e]
  | .retNone => rfl
  | .funcDecl nm ps b => by
      simp [annotateStmt, flagsRespectStmt, flagsRespect_annotateStmts p b]

/-- Statement-list version of `flagsRespect_annotateE`. -/
theorem flagsRespect_annotateStmts (p : List String → Bool) :
    (sts : StmtList) → flagsRespectStmts (memberFlag p) (annotateStmts p sts) = true
  | .nil => rfl
  | .cons h t => by
      simp [annotateStmts, flagsRespectStmts, flagsRespect_annotateStmt p h,
        flagsRespect_annotateStmts p t]

end

/-- Extending a dotted chain by one property name. -/
theorem mkChain_concat (root : String) (ps : List String) (pn : String) :
    mkChain root (ps ++ [pn]) = .member (mkChain root ps) (.ident pn) false false := by
  simp [mkChain, List.foldl_append]

/-- The dotted path of a chain is its root followed by its property names. -/
theorem identifierPath_mkChain (root : String) (props : List String) :
    identifierPath (mkChain root props) = root :: props := by
  induction props using List.reverseRecOn with
  | nil => rfl
  | append_singleton ps pn ih => simp [mkChain_concat, identifierPath, ih]

/-- A chain is an identifier or a member access. -/
theorem isIdentOrMember_mkChain (root : String) (props : List String) :
    isIdentOrMember (mkChain root props) = true := by
  induction props using List.reverseRecOn with
  | nil => rfl
  | append_singleton ps pn ih => simp [mkChain_concat, isIdentOrMember]

/-- A chain is not a new construction. -/
theorem isNewExpression_mkChain (root : String) (props : List String) :
    isNewExpression (mkChain root props) = false := by
  induction props using List.reverseRecOn with
  | nil => rfl
  | append_singleton ps pn ih => simp [mkChain_concat, isNewExpression]

/-- Annotation leaves a dotted chain untouched (all flags off) when, for
every access of the chain, the objects path has a built-in root or is
accepted by the always-defined predicate. -/
theorem annotateE_mkChain (p : List String → Bool) (root : String) :
    (props : List String) →
    (∀ k, k < props.length →
      (BUILT_IN_IDENTIFIERS.contains root || p (root :: props.take k)) = true) →
    annotateE p (mkChain root props) = mkChain root props := by
  intro props
  induction props using List.reverseRecOn with
  | nil => intro _; rfl
  | append_singleton ps pn ih =>
      intro h
      rw [mkChain_concat]
      have hps : ∀ k, k < ps.length →
          (BUILT_IN_IDENTIFIERS.contains root || p (root :: ps.take k)) = true := by
        intro k hk
        have hh := h k (by simp; omega)
        rwa [List.take_append_of_le_length (le_of_lt hk)] at hh
      have hchain := ih hps
      have hguard : (BUILT_IN_IDENTIFIERS.contains root || p (root :: ps)) = true := by
        have hh := h ps.length (by simp)
        rwa [List.take_left] at hh
      have hflag : memberFlag p (mkChain root ps) = false := by
        cases hb : BUILT_IN_IDENTIFIERS.contains root with
        | true =>
            have hmem : root ∈ BUILT_IN_IDENTIFIERS := by simpa using hb
            simp [memberFlag, isNewExpression_mkChain, isIdentOrMember_mkChain,
              identifierPath_mkChain, hmem]
        | false =>
            have hnot : root ∉ BUILT_IN_IDENTIFIERS := by simpa using hb
            have hp : p (root :: ps) = true := by
              rw [hb] at hguard
              simpa using hguard
            simp [memberFlag, isNewExpression_mkChain, isIdentOrMember_mkChain,
              identifierPath_mkChain, hnot, hp]
      simp [annotateE, hchain, hflag]

theorem exceptOk_seq1 {α β : Type} (x : Except String α) (k : α → β) :
    exceptOk (x >>= fun a => Except.ok (k a)) = exceptOk x := by
  cases x <;> rfl

theorem exceptOk_seq2 {α₁ α₂ β : Type} (x : Except String α₁)
    (y : Except String α₂) (k : α₁ → α₂ → β) :
    exceptOk (x >>= fun a => y >>= fun b => Except.ok (k a b))
      = (exceptOk x && exceptOk y) := by
  cases x <;> cases y <;> rfl

theorem exceptOk_seq3 {α₁ α₂ α₃ β : Type} (x : Except String α₁)
    (y : Except String α₂) (z : Except String α₃) (k : α₁ → α₂ → α₃ → β) :
    exceptOk (x >>= fun a => y >>= fun b => z >>= fun c => Except.ok (k a b c))
      = (exceptOk x && exceptOk y && exceptOk z) := by
  cases x <;> cases y <;> cases z <;> rfl

theorem exceptOk_bind1 {α β : Type} (x : Except String α)
    (k : α → Except String β) (c : Bool) (hk : ∀ a, exceptOk (k a) = c) :
    exceptOk (x >>= k) = (exceptOk x && c) := by
  cases x with
  | ok a => simpa [exceptOk] using hk a
  | error e => simp [exceptOk, exceptBind_error]

theorem exceptOk_bind2 {α₁ α₂ β : Type} (x : Except String α₁)
    (y : Except String α₂) (k : α₁ → α₂ → Except String β) (c : Bool)
    (hk : ∀ a b, exceptOk (k a b) = c) :
    exceptOk (x >>= fun a => y >>= fun b => k a b)
      = (exceptOk x && exceptOk y && c) := by
  cases x with
  | ok a =>
      cases y with
      | ok b => simpa [exceptOk] using hk a b
      | error e => simp [exceptOk, exceptBind_ok, exceptBind_error]
  | error e => simp [exceptOk, exceptBind_error]

mutual

/-- The rewriter succeeds on a node exactly when the node contains no
unknown operator (in the inlinability-aware sense of
`hasUnknownOperator`). -/
theorem estreeFromJexlAst_ok (g : Grammar) (o : Options) :
    (ast : JexlAst) → (anc : JexlList) →
    exceptOk (estreeFromJexlAst g ast o anc) = !(hasUnknownOperator g o ast)
  | .lit v, anc => rfl
  | .ident n rel, anc => rfl
  | .identFrom n fr rel, anc => by
      have ih := estreeFromJexlAst_ok g o fr (anc.push (.identFrom n fr rel))
      simp only [estreeFromJexlAst, hasUnknownOperator]
      rw [exceptOk_seq1]
      exact ih
  | .unaryEx op right, anc => by
      have ih := estreeFromJexlAst_ok g o right (anc.push (.unaryEx op right))
      cases hop : (op == "!") with
      | true =>
          simp only [estreeFromJexlAst, hasUnknownOperator, hop, Bool.true_or,
            Bool.or_true, Bool.false_or, Bool.or_false, Bool.or_self,
            Bool.not_true, Bool.not_false, Bool.false_and, Bool.true_and,
            Bool.and_true, Bool.false_eq_true, reduceIte]
          rw [exceptOk_seq1]
          exact ih
      | false =>
          cases hlk : lookupAssoc g.elements op with
          | none =>
              simp [estreeFromJexlAst, hasUnknownOperator, operatorInlinable,
                hop, hlk, exceptOk]
          | some el =>
              cases hta : (el.type == "unaryOp") with
              | false =>
                  simp [estreeFromJexlAst, hasUnknownOperator, operatorInlinable,
                    hop, hlk, hta, exceptOk]
              | true =>
                  cases hev : el.eval.isSome with
                  | false =>
                      simp [estreeFromJexlAst, hasUnknownOperator,
                        operatorInlinable, hop, hlk, hta, hev, exceptOk]
                  | true =>
                      have hk : ∀ a,
                          exceptOk (match createExpressionFromFunction o el.eval
                              (.cons a .nil) with
                            | some e => Except.ok e
                            | none =>
                                Except.error ("Unknown unary operator: " ++ op))
                            = (createExpressionFromFunction o el.eval .nil).isSome := by
                        intro a
                        have hind := createExpressionFromFunction_isSome_args o
                          el.eval (.cons a .nil) .nil
                        cases hca : createExpressionFromFunction o el.eval
                            (.cons a .nil) with
                        | some e => rw [hca] at hind; simp [exceptOk, hind.symm]
                        | none => rw [hca] at hind; simp [exceptOk, hind.symm]
                      simp only [estreeFromJexlAst, hasUnknownOperator,
                        operatorInlinable, hop, hlk, hta, hev, Bool.true_or,
                        Bool.or_true, Bool.false_or, Bool.or_false,
                        Bool.or_self, Bool.not_true, Bool.not_false,
                        Bool.false_and, Bool.true_and, Bool.and_true,
                        Bool.false_eq_true, reduceIte]
                      rw [exceptOk_bind1 _ _ _ hk, ih]
                      cases hc : (createExpressionFromFunction o el.eval
                          EsList.nil).isSome <;>
                        cases hur : hasUnknownOperator g o right <;> simp
  | .binaryEx op l r, anc => by
      have ihl := estreeFromJexlAst_ok g o l (anc.push (.binaryEx op l r))
      have ihr := estreeFromJexlAst_ok g o r (anc.push (.binaryEx op l r))
      cases ha : (op == "&&") with
      | true =>
          simp only [estreeFromJexlAst, hasUnknownOperator, ha, Bool.true_or,
            Bool.or_true, Bool.false_or, Bool.or_false, Bool.or_self,
            Bool.not_true, Bool.not_false, Bool.false_and, Bool.true_and,
            Bool.and_true, Bool.false_eq_true, reduceIte]
          rw [exceptOk_seq2, ihl, ihr]
          simp [Bool.not_or]
      | false =>
      cases hb : (op == "||") with
      | true =>
          simp only [estreeFromJexlAst, hasUnknownOperator, ha, hb,
            Bool.true_or, Bool.or_true, Bool.false_or, Bool.or_false,
            Bool.or_self, Bool.not_true, Bool.not_false, Bool.false_and,
            Bool.true_and, Bool.and_true, Bool.false_eq_true, reduceIte]
          rw [exceptOk_seq2, ihl, ihr]
          simp [Bool.not_or]
      | false =>
      cases hpt : isPassThroughBinaryOp op with
      | true =>
          simp only [estreeFromJexlAst, hasUnknownOperator, ha, hb, hpt,
            Bool.true_or, Bool.or_true, Bool.false_or, Bool.or_false,
            Bool.or_self, Bool.not_true, Bool.not_false, Bool.false_and,
            Bool.true_and, Bool.and_true, Bool.false_eq_true, reduceIte]
          rw [exceptOk_seq2, ihl, ihr]
          simp [Bool.not_or]
      | false =>
      cases heq : (op == "==") with
      | true =>
          simp only [estreeFromJexlAst, hasUnknownOperator, ha, hb, hpt, heq,
            Bool.true_or, Bool.or_true, Bool.false_or, Bool.or_false,
            Bool.or_self, Bool.not_true, Bool.not_false, Bool.false_and,
            Bool.true_and, Bool.and_true, Bool.false_eq_true, reduceIte]
          rw [exceptOk_seq2, ihl, ihr]
          simp [Bool.not_or]
      | false =>
      cases hne : (op == "!=") with
      | true =>
          simp only [estreeFromJexlAst, hasUnknownOperator, ha, hb, hpt, heq,
            hne, Bool.true_or, Bool.or_true, Bool.false_or, Bool.or_false,
            Bool.or_self, Bool.not_true, Bool.not_false, Bool.false_and,
            Bool.true_and, Bool.and_true, Bool.false_eq_true, reduceIte]
          rw [exceptOk_seq2, ihl, ihr]
          simp [Bool.not_or]
      | false =>
      cases hpow : (op == "^") with
      | true =>
          simp only [estreeFromJexlAst, hasUnknownOperator, ha, hb, hpt, heq,
            hne, hpow, Bool.true_or, Bool.or_true, Bool.false_or,
            Bool.or_false, Bool.or_self, Bool.not_true, Bool.not_false,
            Bool.false_and, Bool.true_and, Bool.and_true, Bool.false_eq_true,
            reduceIte]
          rw [exceptOk_seq2, ihl, ihr]
          simp [Bool.not_or]
      | false =>
      cases hfl : (op == "//") with
      | true =>
          simp only [estreeFromJexlAst, hasUnknownOperator, ha, hb, hpt, heq,
            hne, hpow, hfl, Bool.true_or, Bool.or_true, Bool.false_or,
            Bool.or_false, Bool.or_self, Bool.not_true, Bool.not_false,
            Bool.false_and, Bool.true_and, Bool.and_true, Bool.false_eq_true,
            reduceIte]
          rw [exceptOk_seq2, ihl, ihr]
          simp [Bool.not_or]
      | false =>
      cases hin : (op == "in") with
      | true =>
          simp only [estreeFromJexlAst, hasUnknownOperator, ha, hb, hpt, heq,
            hne, hpow, hfl, hin, Bool.true_or, Bool.or_true, Bool.false_or,
            Bool.or_false, Bool.or_self, Bool.not_true, Bool.not_false,
            Bool.false_and, Bool.true_and, Bool.and_true, Bool.false_eq_true,
            reduceIte]
          rw [exceptOk_seq2, ihr, ihl]
          cases hul : hasUnknownOperator g o l <;>
            cases hur : hasUnknownOperator g o r <;> simp
      | false =>
      cases hlk : lookupAssoc g.elements op with
      | none =>
          simp [estreeFromJexlAst, hasUnknownOperator, operatorInlinable,
            ha, hb, hpt, heq, hne, hpow, hfl, hin, hlk, exceptOk]
      | some el =>
          cases hta : (el.type == "binaryOp") with
          | false =>
              simp [estreeFromJexlAst, hasUnknownOperator, operatorInlinable,
                ha, hb, hpt, heq, hne, hpow, hfl, hin, hlk, hta, exceptOk]
          | true =>
              cases hev : el.eval.isSome with
              | false =>
                  simp [estreeFromJexlAst, hasUnknownOperator,
                    operatorInlinable, ha, hb, hpt, heq, hne, hpow, hfl, hin,
                    hlk, hta, hev, exceptOk]
              | true =>
                  have hk : ∀ a b,
                      exceptOk (match createExpressionFromFunction o el.eval
                          (.cons a (.cons b .nil)) with
                        | some e => Except.ok e
                        | none =>
                            Except.error ("Unknown binary operator: " ++ op))
                        = (createExpressionFromFunction o el.eval .nil).isSome := by
                    intro a b
                    have hind := createExpressionFromFunction_isSome_args o
                      el.eval (.cons a (.cons b .nil)) .nil
                    cases hca : createExpressionFromFunction o el.eval
                        (.cons a (.cons b .nil)) with
                    | some e => rw [hca] at hind; simp [exceptOk, hind.symm]
                    | none => rw [hca] at hind; simp [exceptOk, hind.symm]
                  simp only [estreeFromJexlAst, hasUnknownOperator,
                    operatorInlinable, ha, hb, hpt, heq, hne, hpow, hfl, hin,
                    hlk, hta, hev, Bool.true_or, Bool.or_true, Bool.false_or,
                    Bool.or_false, Bool.or_self, Bool.not_true, Bool.not_false,
                    Bool.false_and, Bool.true_and, Bool.and_true,
                    Bool.false_eq_true, reduceIte]
                  rw [exceptOk_bind2 _ _ _ _ hk, ihl, ihr]
                  cases hc : (createExpressionFromFunction o el.eval
                      EsList.nil).isSome <;>
                    cases hul : hasUnknownOperator g o l <;>
                    cases hur : hasUnknownOperator g o r <;> simp
  | .condEx t c a, anc => by
      have iht := estreeFromJexlAst_ok g o t (anc.push (.condEx t c a))
      have ihc := estreeFromJexlAst_ok g o c (anc.push (.condEx t c a))
      have iha := estreeFromJexlAst_ok g o a (anc.push (.condEx t c a))
      simp only [estreeFromJexlAst, hasUnknownOperator]
      rw [exceptOk_seq3, iht, ihc, iha]
      simp [Bool.not_or]
  | .arrayLit elems, anc => by
      have ih := estreeFromJexlAstList_ok g o elems (anc.push (.arrayLit elems))
      simp only [estreeFromJexlAst, hasUnknownOperator]
      rw [exceptOk_seq1]
      exact ih
  | .objectLit entries, anc => by
      have ih := estreeFromJexlAstEntries_ok g o entries
        (anc.push (.objectLit entries))
      simp only [estreeFromJexlAst, hasUnknownOperator]
      rw [exceptOk_seq1]
      exact ih
  | .filterEx rel subject expr, anc => by
      have ihs := estreeFromJexlAst_ok g o subject
        (anc.push (.filterEx rel subject expr))
      have ihe := estreeFromJexlAst_ok g o expr
        (anc.push (.filterEx rel subject expr))
      cases rel with
      | true =>
          simp only [estreeFromJexlAst, hasUnknownOperator, Bool.false_eq_true,
            reduceIte]
          rw [exceptOk_seq2, ihs, ihe]
          simp [Bool.not_or]
      | false =>
          simp only [estreeFromJexlAst, hasUnknownOperator, Bool.false_eq_true,
            reduceIte]
          rw [exceptOk_seq2, ihs, ihe]
          simp [Bool.not_or]
  | .funcCall pool name args, anc => by
      have ih := estreeFromJexlAstList_ok g o args
        (anc.push (.funcCall pool name args))
      have hk : ∀ a, exceptOk
          (match createExpressionFromFunction o
              (resolveImplementation o g pool name) a with
            | some e => Except.ok e
            | none => Except.ok (.callEx (.ident name) a)) = true := by
        intro a
        cases createExpressionFromFunction o
            (resolveImplementation o g pool name) a <;> simp [exceptOk]
      simp only [estreeFromJexlAst, hasUnknownOperator]
      rw [exceptOk_bind1 _ _ _ hk, ih]
      simp

/-- List version of `estreeFromJexlAst_ok`. -/
theorem estreeFromJexlAstList_ok (g : Grammar) (o : Options) :
    (l : JexlList) → (anc : JexlList) →
    exceptOk (estreeFromJexlAstList g l o anc)
      = !(hasUnknownOperatorList g o l)
  | .nil, anc => rfl
  | .cons h t, anc => by
      have ihh := estreeFromJexlAst_ok g o h anc
      have iht := estreeFromJexlAstList_ok g o t anc
      simp only [estreeFromJexlAstList, hasUnknownOperatorList]
      rw [exceptOk_seq2, ihh, iht]
      simp [Bool.not_or]

/-- Entries version of `estreeFromJexlAst_ok`. -/
theorem estreeFromJexlAstEntries_ok (g : Grammar) (o : Options) :
    (l : JexlEntries) → (anc : JexlList) →
    exceptOk (estreeFromJexlAstEntries g l o anc)
      = !(hasUnknownOperatorEntries g o l)
  | .nil, anc => rfl
  | .cons k v t, anc => by
      have ihv := estreeFromJexlAst_ok g o v anc
      have iht := estreeFromJexlAstEntries_ok g o t anc
      simp only [estreeFromJexlAstEntries, hasUnknownOperatorEntries]
      rw [exceptOk_seq2, ihv, iht]
      simp [Bool.not_or]

end

/-- C1: for every binary-expression source node, the rewriter maps the
operator per the static table: `==` and `!=` translate to the strict forms
`===`/`!==`, `^` becomes a `Math.pow` call, `//` becomes
`Math.floor(left / right)`, and `in` becomes `right.includes(left)` with
operand order preserved: the rewritten left operand is the sole argument of
`includes` and the rewritten right operand is the receiver. -/
theorem c1_binary_operator_table :
    (∀ (g : Grammar) (o : Options) (anc : JexlList) (l r : JexlAst),
      estreeFromJexlAst g (.binaryEx "==" l r) o anc
        = (estreeFromJexlAst g l o (anc.push (.binaryEx "==" l r)) >>= fun le =>
           estreeFromJexlAst g r o (anc.push (.binaryEx "==" l r)) >>= fun re =>
           Except.ok (.binaryEx "===" le re)))
  ∧ (∀ (g : Grammar) (o : Options) (anc : JexlList) (l r : JexlAst),
      estreeFromJexlAst g (.binaryEx "!=" l r) o anc
        = (estreeFromJexlAst g l o (anc.push (.binaryEx "!=" l r)) >>= fun le =>
           estreeFromJexlAst g r o (anc.push (.binaryEx "!=" l r)) >>= fun re =>
           Except.ok (.binaryEx "!==" le re)))
  ∧ (∀ (g : Grammar) (o : Options) (anc : JexlList) (l r : JexlAst),
      estreeFromJexlAst g (.binaryEx "^" l r) o anc
        = (estreeFromJexlAst g l o (anc.push (.binaryEx "^" l r)) >>= fun le =>
           estreeFromJexlAst g r o (anc.push (.binaryEx "^" l r)) >>= fun re =>
           Except.ok (.callEx (.member (.ident "Math") (.ident "pow") false false)
             (.cons le (.cons re .nil)))))
  ∧ (∀ (g : Grammar) (o : Options) (anc : JexlList) (l r : JexlAst),
      estreeFromJexlAst g (.binaryEx "//" l r) o anc
        = (estreeFromJexlAst g l o (anc.push (.binaryEx "//" l r)) >>= fun le =>
           estreeFromJexlAst g r o (anc.push (.binaryEx "//" l r)) >>= fun re =>
           Except.ok (.callEx (.member (.ident "Math") (.ident "floor") false false)
             (.cons (.binaryEx "/" le re) .nil))))
  ∧ (∀ (g : Grammar) (o : Options) (anc : JexlList) (l r : JexlAst),
      estreeFromJexlAst g (.binaryEx "in" l r) o anc
        = (estreeFromJexlAst g r o (anc.push (.binaryEx "in" l r)) >>= fun re =>
           estreeFromJexlAst g l o (anc.push (.binaryEx "in" l r)) >>= fun le =>
           Except.ok (.callEx (.member re (.ident "includes") false false)
             (.cons le .nil)))) := by
  refine ⟨?_, ?_, ?_, ?_, ?_⟩ <;> (intros; rfl)

/-- C2: the claim asks for one arrow parameter destructuring the full set of
relatively referenced names, but the code builds one single-name object
pattern parameter per collected occurrence: the relative filter
`foo[.a == .b]` is rewritten to an arrow with the two parameters
`(\x7ba\x7d, \x7bb\x7d)`, whose second parameter is destructured from the
`filter` callback index argument rather than from the element. -/
theorem c2_relative_filter_parameter_per_name :
    estreeFromJexlAst gEmpty
      (.filterEx true (.ident "foo" false)
        (.binaryEx "==" (.ident "a" true) (.ident "b" true))) oEmpty .nil
      = .ok (.callEx (.member (.ident "foo") (.ident "filter") false false)
          (.cons (.arrowEx [Pat.objPat ["a"], Pat.objPat ["b"]]
            (.expr (.binaryEx "===" (.ident "a") (.ident "b")))) .nil)) := rfl

/-- C3 counterexample: the claim says the optional flag is true whenever the
object is neither a rooted identifier path with an allow-listed root or
accepted full path, nor static, nor a new construction.  For the tree
`f().Math.x` the object `f().Math` is none of those, yet the annotator turns
its flag off, because the path computation drops the call at the root and
treats the remaining path `Math` as built-in rooted. -/
theorem c3_counterexample :
    flagsRespectE (memberFlagClaim pNever)
      (addOptionalChainingToMemberExpressions pNever
        (.member (.member (.callEx (.ident "f") .nil) (.ident "Math") false false)
          (.ident "x") false false)) = false := rfl

/-- C3 (amended): in the annotated tree, every member access carries the
flag given by the code rule `memberFlag`: false after a new construction;
false when the object is an identifier or member access whose computed path
(which may drop a non-identifier root) is non-empty and has a built-in head
or satisfies the always-defined predicate on the full path; otherwise the
negation of being a static literal. -/
theorem c3_optional_flag_rule (p : List String → Bool) (e : Es) :
    flagsRespectE (memberFlag p)
      (addOptionalChainingToMemberExpressions p e) = true :=
  flagsRespect_annotateE p e

/-- C4: inlining the identity arrow `x => x` with no call-site argument
returns the bare identifier `x`, not the `undefined` placeholder the claim
requires: the parameter replacement rewires the expression-statement wrapper
while the returned `functionBody` alias still points at the original
identifier node. -/
theorem c4_identity_function_stale_root :
    createExpressionFromFunction oIdentity (some identityArrowSrc) .nil
      = some (.ident "x") := rfl

/-- C5 counterexample: the source tree `1 <> 2` over a grammar whose `<>`
has a registered (resolvable) implementation still aborts with
UnknownOperator when no function parser is configured, although the claim
says a tree whose every custom operator symbol has a resolvable
implementation never triggers the error. -/
theorem c5_counterexample :
    exceptOk (estreeFromJexlAst gCustomOp
        (.binaryEx "<>" (.lit (.num 1)) (.lit (.num 2))) oEmpty .nil) = false
  ∧ hasUnresolvableOperator gCustomOp
      (.binaryEx "<>" (.lit (.num 1)) (.lit (.num 2))) = false := ⟨rfl, rfl⟩

/-- C5 (amended): translation throws if and only if the tree contains a
unary operator other than `!`, or a binary operator outside the static
table, that is not inlinable: lacking a grammar element of the matching
kind with an implementation for which the configured function parser yields
an arrow function or function declaration whose processed body produces an
expression.  A resolvable implementation that cannot be inlined still
aborts. -/
theorem c5_throws_iff_unknown_operator (g : Grammar) (o : Options)
    (ast : JexlAst) (anc : JexlList) :
    exceptOk (estreeFromJexlAst g ast o anc) = !(hasUnknownOperator g o ast) :=
  estreeFromJexlAst_ok g o ast anc

/-- C6: implementation resolution is override first, then the grammar pool,
else absent; and whenever the resolved implementation yields no inline
expression (including when it is absent), the call becomes a plain call of
an identifier bearing the source name applied to the rewritten arguments in
order. -/
theorem c6_resolution_priority_and_fallback :
    (∀ (o : Options) (g : Grammar) (pool : Pool) (m : List (String × String))
        (n v : String),
        overrideMap o pool = some m → lookupAssoc m n = some v →
        resolveImplementation o g pool n = some v)
  ∧ (∀ (o : Options) (g : Grammar) (pool : Pool) (m : List (String × String))
        (n : String),
        overrideMap o pool = some m → lookupAssoc m n = none →
        resolveImplementation o g pool n = lookupAssoc (grammarPool g pool) n)
  ∧ (∀ (o : Options) (g : Grammar) (pool : Pool) (n : String),
        overrideMap o pool = none →
        resolveImplementation o g pool n = lookupAssoc (grammarPool g pool) n)
  ∧ (∀ (g : Grammar) (o : Options) (anc : JexlList) (pool : Pool)
        (name : String) (args : JexlList) (args' : EsList),
        estreeFromJexlAstList g args o (anc.push (.funcCall pool name args))
          = .ok args' →
        createExpressionFromFunction o (resolveImplementation o g pool name)
          args' = none →
        estreeFromJexlAst g (.funcCall pool name args) o anc
          = .ok (.callEx (.ident name) args')) := by
  refine ⟨?_, ?_, ?_, ?_⟩
  · intro o g pool m n v hm hv
    cases pool <;> simp [resolveImplementation, overrideMap] at hm ⊢ <;>
      simp [hm, hv]
  · intro o g pool m n hm hv
    cases pool <;> simp [resolveImplementation, overrideMap, grammarPool] at hm ⊢ <;>
      simp [hm, hv]
  · intro o g pool n hm
    cases pool <;> simp [resolveImplementation, overrideMap, grammarPool] at hm ⊢ <;>
      simp [hm]
  · intro g o anc pool name args args' hargs hcreate
    simp only [estreeFromJexlAst, hargs, exceptBind_ok, hcreate]

/-- C6 witness: a call with no known implementation becomes a plain call of
its source name on the rewritten arguments. -/
theorem c6_witness :
    estreeFromJexlAst gEmpty
      (.funcCall .functions "f" (.cons (.lit (.num 1)) .nil)) oEmpty .nil
      = .ok (.callEx (.ident "f") (.cons (.lit (.num 1)) .nil)) :=
  c6_resolution_priority_and_fallback.2.2.2 gEmpty oEmpty .nil .functions "f"
    (.cons (.lit (.num 1)) .nil) (.cons (.lit (.num 1)) .nil) rfl rfl

/-- C7: a non-relative filter expression is always rewritten to a computed
member access whose object is the rewritten subject and whose property is
the fully rewritten predicate, whatever the shape of the predicate; no
predicate scanning and no filter call. -/
theorem c7_absolute_filter_computed_member (g : Grammar) (o : Options)
    (anc : JexlList) (subject expr : JexlAst) :
    estreeFromJexlAst g (.filterEx false subject expr) o anc
      = (estreeFromJexlAst g subject o (anc.push (.filterEx false subject expr))
          >>= fun s =>
         estreeFromJexlAst g expr o (anc.push (.filterEx false subject expr))
          >>= fun e =>
         Except.ok (.member s e true false)) := rfl

/-- C8 counterexample: a predicate accepting exactly the root path `a` does
not keep the whole chain `a.b.c` non-optional: the access `.c` is marked
optional because its objects path `a.b` is not accepted. -/
theorem c8_counterexample :
    pRootAOnly ["a"] = true
  ∧ addOptionalChainingToMemberExpressions pRootAOnly
      (.member (.member (.ident "a") (.ident "b") false false)
        (.ident "c") false false)
    = .member (.member (.ident "a") (.ident "b") false false)
        (.ident "c") false true := ⟨rfl, rfl⟩

/-- C8 (amended): a pure dotted chain stays entirely non-optional when, for
every access of the chain, the objects path has a built-in root or is
accepted by the always-defined predicate (accepting only the root is not
enough); and independently, a member access whose object is a new
construction has its optional flag forced off. -/
theorem c8_always_defined_chains :
    (∀ (p : List String → Bool) (root : String) (props : List String),
      (∀ k, k < props.length →
        (BUILT_IN_IDENTIFIERS.contains root || p (root :: props.take k)) = true) →
      addOptionalChainingToMemberExpressions p (mkChain root props)
        = mkChain root props)
  ∧ (∀ (p : List String → Bool) (cal : Es) (args : EsList) (pr : Es)
      (c f : Bool),
      addOptionalChainingToMemberExpressions p (.member (.newEx cal args) pr c f)
        = .member (.newEx (annotateE p cal) (annotateL p args))
            (annotateE p pr) c false) := by
  constructor
  · intro p root props h
    exact annotateE_mkChain p root props h
  · intro p cal args pr c f
    simp [addOptionalChainingToMemberExpressions, annotateE, memberFlag,
      isNewExpression]

/-- C8 witness: a built-in rooted dotted chain is annotated to itself, with
every optional flag off. -/
theorem c8_witness :
    addOptionalChainingToMemberExpressions pNever (mkChain "Math" ["a", "b"])
      = mkChain "Math" ["a", "b"] :=
  c8_always_defined_chains.1 pNever "Math" ["a", "b"] (by decide)

/-- C9: translation is a pure function of grammar, tree and configuration:
two occurrences of the same function call with the same arguments inside one
source expression rewrite to structurally identical target subtrees. -/
theorem c9_duplicate_call_identical (g : Grammar) (o : Options) (pool : Pool)
    (name : String) (args : JexlList) (anc : JexlList) (res : Es)
    (h : estreeFromJexlAst g (.funcCall pool name args) o
      (anc.push (.arrayLit (.cons (.funcCall pool name args)
        (.cons (.funcCall pool name args) .nil)))) = .ok res) :
    estreeFromJexlAst g
      (.arrayLit (.cons (.funcCall pool name args)
        (.cons (.funcCall pool name args) .nil))) o anc
      = .ok (.arrayEx (.cons res (.cons res .nil))) := by
  have hl : estreeFromJexlAstList g
      (.cons (.funcCall pool name args) (.cons (.funcCall pool name args) .nil))
      o (anc.push (.arrayLit (.cons (.funcCall pool name args)
        (.cons (.funcCall pool name args) .nil))))
      = .ok (.cons res (.cons res .nil)) := by
    simp only [estreeFromJexlAstList, h, exceptBind_ok]
  simp only [estreeFromJexlAst, hl, exceptBind_ok]

/-- C9 witness: the duplicated call `f()` rewrites to the same plain call in
both positions. -/
theorem c9_witness :
    estreeFromJexlAst gEmpty
      (.arrayLit (.cons (.funcCall .functions "f" .nil)
        (.cons (.funcCall .functions "f" .nil) .nil))) oEmpty .nil
      = .ok (.arrayEx (.cons (.callEx (.ident "f") .nil)
          (.cons (.callEx (.ident "f") .nil) .nil))) :=
  c9_duplicate_call_identical gEmpty oEmpty .functions "f" .nil .nil
    (.callEx (.ident "f") .nil) rfl

/-- C10: the trailing-`undefined` pruning rewrites only call-expression
argument lists: a new-expression keeps its argument list (the placeholder in
`new Date(undefined)` produced by inlining `dateString` with no argument
survives), while the trailing placeholder of the call inside the inlined
`parseInt` body is removed. -/
theorem c10_prune_spares_new_expressions :
    (∀ (cal : Es) (args : EsList),
      pruneE (.newEx cal args) = .newEx (pruneE cal) (pruneL args))
  ∧ createExpressionFromFunction oTable (some dateStringSrc) .nil
      = some (.callEx
          (.member (.newEx (.ident "Date") (.cons (.ident "undefined") .nil))
            (.ident "toString") false false) .nil)
  ∧ createExpressionFromFunction oTable (some parseIntSrc)
        (.cons (.lit (.str "1234")) .nil)
      = some (.callEx (.ident "parseInt") (.cons (.lit (.str "1234")) .nil)) :=
  ⟨fun _ _ => rfl, rfl, rfl⟩
